import Mathlib

set_option maxHeartbeats 1000000

/-!
Shallow embedding of the diagnostics component of the vscode-twig-language
extension (file `src/diagnostics.js`).  The embedding models:

* `preprocessTwig` — the two regex masking passes that replace Twig
  `\x7b% ... %\x7d` blocks and `\x7b\x7b ... \x7d\x7d` expressions
  with single-line HTML comments encoding the number of newlines of the
  replaced region;
* `validateNode` / `validateDocument` — the tag-balance validator that walks
  the parsed HTML tree with a stack of open non-void tags and emits
  `Unclosed tag` and `Mismatched tag` diagnostics.

Parsed nodes (`PNode`) model the tree produced by the external HTML language
service: an optional tag name, start and end offsets, an optional
end-tag-start offset, and a list of children.
-/

/-- A parsed HTML node, as produced by the external HTML language service:
optional tag, start offset, end offset, optional end-tag-start offset and
the list of children, in document order. -/
inductive PNode : Type where
  | mk (tag : Option String) (start : Nat) (endOff : Nat) (endTagStart : Option Nat)
      (children : List PNode)

def PNode.tag : PNode → Option String
  | .mk t _ _ _ _ => t

def PNode.start : PNode → Nat
  | .mk _ s _ _ _ => s

def PNode.endOff : PNode → Nat
  | .mk _ _ e _ _ => e

def PNode.endTagStart : PNode → Option Nat
  | .mk _ _ _ ets _ => ets

def PNode.children : PNode → List PNode
  | .mk _ _ _ _ cs => cs

/-- Diagnostic severity, as in the editor API. -/
inductive Severity : Type where
  | error
  | warning
  | information
  | hint
deriving DecidableEq

/-- A diagnostic: a range (kept as raw offsets of the original document, since
offset-to-position conversion is delegated to the external document object),
a message and a severity. -/
structure Diag where
  rangeStart : Nat
  rangeEnd : Nat
  message : String
  severity : Severity
deriving DecidableEq

/-- A stack frame recorded for an open non-void tag:
`\x7b name, start: node.start, end: node.endTagStart || node.end \x7d`. -/
structure TagFrame where
  name : String
  start : Nat
  endOff : Nat
deriving DecidableEq

/-- The mutable state of one validation pass: the diagnostics accumulated so
far (in emission order) and the tag stack (head = top of stack). -/
structure VState where
  diagnostics : List Diag
  tagStack : List TagFrame
deriving DecidableEq

/-- The fourteen void elements, from `validateNode`. -/
def voidElements : List String :=
  ["area", "base", "br", "col", "embed", "hr", "img", "input",
   "link", "meta", "param", "source", "track", "wbr"]

/-- JavaScript `s.toLowerCase()`: lowercase the string character by
character. -/
def toLowerStr (s : String) : String :=
  String.mk (s.data.map Char.toLower)

/-- JavaScript `a || b` on an optional number `a`: `undefined` and `0` are
falsy, any other number is truthy.  This models `node.endTagStart || node.end`
in the push of `validateNode`. -/
def jsOrFalsy (a : Option Nat) (b : Nat) : Nat :=
  match a with
  | none => b
  | some v => if v = 0 then b else v

/-- The message of a mismatched-tag diagnostic. -/
def mkMismatchMsg (popped current : String) : String :=
  "Mismatched tag: expected </" ++ popped ++ ">, found </" ++ current ++ ">"

/-- The message of an unclosed-tag diagnostic. -/
def mkUnclosedMsg (name : String) : String :=
  "Unclosed tag: <" ++ name ++ ">"

mutual

/-- Embedding of `validateNode(node, document, diagnostics, tagStack)`:
if the node has a tag, push a frame unless the tag is void, recurse into the
tagged children, and if the tag is non-void and has a recorded end-tag-start,
pop one frame and emit a mismatched-tag diagnostic when the popped name
differs from the current tag name. -/
def validateNode : PNode → VState → VState
  | PNode.mk tag start endOff ets children, st =>
    match tag with
    | none => st
    | some t =>
      let tagName := toLowerStr t
      let st1 :=
        if voidElements.contains tagName then st
        else { st with tagStack := ⟨tagName, start, jsOrFalsy ets endOff⟩ :: st.tagStack }
      let st2 := validateNodeList children st1
      if voidElements.contains tagName then st2
      else
        match ets with
        | none => st2
        | some e =>
          match st2.tagStack with
          | [] => st2
          | lastTag :: rest =>
            if lastTag.name ≠ tagName then
              { diagnostics := st2.diagnostics ++
                  [⟨start, e, mkMismatchMsg lastTag.name tagName, Severity.error⟩],
                tagStack := rest }
            else { st2 with tagStack := rest }
termination_by structural n => n

/-- Embedding of `children.forEach(child => \x7b if (child.tag)
validateNode(child, ...) \x7d)` — also used for the roots loop of
`validateDocument`, which has the same `if (root.tag)` guard. -/
def validateNodeList : List PNode → VState → VState
  | [], st => st
  | n :: ns, st => validateNodeList ns (if n.tag.isSome then validateNode n st else st)
termination_by structural l => l

end

/-- The diagnostics computed by one validation pass of `validateDocument`
over the parsed roots: traversal diagnostics followed by one unclosed-tag
diagnostic for every frame left on the stack, in stack order (bottom first,
as `tagStack.forEach` iterates the array from index 0). -/
def validateDocumentCore (roots : List PNode) : List Diag :=
  let st := validateNodeList roots ⟨[], []⟩
  st.diagnostics ++
    st.tagStack.reverse.map (fun f => ⟨f.start, f.endOff, mkUnclosedMsg f.name, Severity.error⟩)

mutual

/-- The number of nodes of the traversed part of a tree that the validator
treats as unclosed: tagged, non-void, and without a recorded end-tag-start.
Untagged nodes are skipped together with their subtrees, exactly as the
traversal skips them. -/
def unclosedCount : PNode → Nat
  | PNode.mk tag _ _ ets children =>
    match tag with
    | none => 0
    | some t =>
      (if voidElements.contains (toLowerStr t) = false ∧ ets = none then 1 else 0) +
        unclosedCountList children
termination_by structural n => n

/-- Sum of `unclosedCount` over a list of roots or children. -/
def unclosedCountList : List PNode → Nat
  | [] => 0
  | n :: ns => unclosedCount n + unclosedCountList ns
termination_by structural l => l

end

mutual

/-- A tree is well-closed when every traversed tagged node is non-void, has a
recorded end-tag-start, and has well-closed children. -/
def goodNode : PNode → Bool
  | PNode.mk tag _ _ ets children =>
    match tag with
    | none => true
    | some t =>
      !(voidElements.contains (toLowerStr t)) && ets.isSome && goodNodeList children
termination_by structural n => n

/-- `goodNode` on every node of a list. -/
def goodNodeList : List PNode → Bool
  | [] => true
  | n :: ns => goodNode n && goodNodeList ns
termination_by structural l => l

end

mutual

/-- All tag frames the traversal of a node can ever push: one frame per
traversed non-void tagged node, recording the lowercased name, the start
offset, and `node.endTagStart || node.end`. -/
def framesOf : PNode → List TagFrame
  | PNode.mk tag start endOff ets children =>
    match tag with
    | none => []
    | some t =>
      let tagName := toLowerStr t
      (if voidElements.contains tagName then []
       else [⟨tagName, start, jsOrFalsy ets endOff⟩]) ++ framesOfList children
termination_by structural n => n

/-- Union of `framesOf` over a list of roots or children. -/
def framesOfList : List PNode → List TagFrame
  | [] => []
  | n :: ns => framesOf n ++ framesOfList ns
termination_by structural l => l

end

/-- A sentinel diagnostic used only by `validateNodeStrict` below, emitted
when a pop finds an empty stack.  It can never be produced by `validateNode`,
whose messages always come from `mkMismatchMsg` or `mkUnclosedMsg`. -/
def sentinelDiag : Diag :=
  ⟨0, 0, "POP ON EMPTY STACK", Severity.error⟩

mutual

/-- Variant of `validateNode` that records a sentinel diagnostic whenever the
pop in the closing-tag branch finds an empty stack, i.e. whenever the
`lastTag &&` guard of the source would have suppressed a mismatch check.
Agreement with `validateNode` proves that branch is never taken. -/
def validateNodeStrict : PNode → VState → VState
  | PNode.mk tag start endOff ets children, st =>
    match tag with
    | none => st
    | some t =>
      let tagName := toLowerStr t
      let st1 :=
        if voidElements.contains tagName then st
        else { st with tagStack := ⟨tagName, start, jsOrFalsy ets endOff⟩ :: st.tagStack }
      let st2 := validateNodeListStrict children st1
      if voidElements.contains tagName then st2
      else
        match ets with
        | none => st2
        | some e =>
          match st2.tagStack with
          | [] => { st2 with diagnostics := st2.diagnostics ++ [sentinelDiag] }
          | lastTag :: rest =>
            if lastTag.name ≠ tagName then
              { diagnostics := st2.diagnostics ++
                  [⟨start, e, mkMismatchMsg lastTag.name tagName, Severity.error⟩],
                tagStack := rest }
            else { st2 with tagStack := rest }
termination_by structural n => n

/-- Strict variant of `validateNodeList`. -/
def validateNodeListStrict : List PNode → VState → VState
  | [], st => st
  | n :: ns, st => validateNodeListStrict ns (if n.tag.isSome then validateNodeStrict n st else st)
termination_by structural l => l

end

/-- Embedding of the full `validateDocument`, including the initialization
guard and the final `diagnosticCollection.set(document.uri, diagnostics)`.
The two module-level references are modelled by their truthiness, and the
diagnostic collection by an association list keyed by document uri. -/
def validateDocumentJS (htmlLanguageServiceInit diagnosticCollectionInit : Bool)
    (uri : String) (roots : List PNode)
    (collection : List (String × List Diag)) : List (String × List Diag) :=
  if htmlLanguageServiceInit = false ∨ diagnosticCollectionInit = false then collection
  else (uri, validateDocumentCore roots) :: collection.filter (fun p => p.1 ≠ uri)

/-- `matchesAt pat s`: the pattern occurs at the very start of `s`. -/
def matchesAt : List Char → List Char → Bool
  | [], _ => true
  | _ :: _, [] => false
  | p :: ps, c :: cs => p = c && matchesAt ps cs

/-- Index of the first occurrence of `pat` in `s`, if any. -/
def findSub (pat : List Char) : List Char → Option Nat
  | [] => none
  | c :: rest =>
    if matchesAt pat (c :: rest) then some 0
    else (findSub pat rest).map (· + 1)

/-- Split at the first occurrence of `pat`:
`splitAtSub pat s = some (pre, post)` exactly when `s = pre ++ pat ++ post`
with `pre` shortest possible, and `none` when `pat` does not occur. -/
def splitAtSub (pat s : List Char) : Option (List Char × List Char) :=
  (findSub pat s).map (fun i => (s.take i, s.drop (i + pat.length)))

/-- Number of newline characters of a region, as computed by
`(match.match(/\n/g) || []).length`. -/
def countNewlines (l : List Char) : Nat :=
  l.count '\n'

set_option linter.unusedVariables false in
/-- One global-replace pass of a non-greedy regex `XY[\s\S]*?ZW` with
two-character delimiters, as performed by `source.replace(...)`: scanning
left to right, at each position where the opening pair occurs and the
closing pair occurs somewhere later, the minimal match is replaced by
`ph` applied to the newline count of the whole matched region and scanning
resumes after the match; if no closing pair follows, the rest of the text
is left as it is (the regex can no longer match anywhere). -/
def maskScan (o1 o2 c1 c2 : Char) (ph : Nat → List Char) : List Char → List Char
  | [] => []
  | [c] => [c]
  | a :: b :: rest =>
    if a = o1 ∧ b = o2 then
      match hs : splitAtSub [c1, c2] rest with
      | some (mid, post) =>
        ph (countNewlines ([o1, o2] ++ mid ++ [c1, c2])) ++ maskScan o1 o2 c1 c2 ph post
      | none => a :: b :: rest
    else a :: maskScan o1 o2 c1 c2 ph (b :: rest)
termination_by s => s.length
decreasing_by
  · simp only [splitAtSub, Option.map_eq_some'] at hs
    obtain ⟨i, _, heq⟩ := hs
    have hpost : rest.drop (i + [c1, c2].length) = post := congrArg Prod.snd heq
    have hle : post.length ≤ rest.length := by
      rw [← hpost]
      simp [List.length_drop]
    simp
    omega
  · simp

/-- The placeholder comment for a Twig block region containing `n`
newlines. -/
def blockPlaceholder (n : Nat) : List Char :=
  ("<!-- TWIG_BLOCK " ++ toString n ++ " -->").data

/-- The placeholder comment for a Twig expression region containing `n`
newlines. -/
def exprPlaceholder (n : Nat) : List Char :=
  ("<!-- TWIG_EXPR " ++ toString n ++ " -->").data

/-- Embedding of `preprocessTwig(source)`: first replace every non-greedy
match of the Twig block delimiters with `<!-- TWIG_BLOCK n -->`, then every
non-greedy match of the Twig expression delimiters with
`<!-- TWIG_EXPR n -->`, where `n` counts the newlines of the matched
region. -/
def preprocessTwig (source : String) : String :=
  let processed := maskScan '\x7b' '%' '%' '\x7d' blockPlaceholder source.data
  String.mk (maskScan '\x7b' '\x7b' '\x7d' '\x7d' exprPlaceholder processed)

/-- Specification relation written from the spec text for one masking pass:
the output replaces each non-overlapping, left-to-right minimal match of
`op ... cl` by the placeholder of the newline count of the matched region;
text before the first match is kept, and an opening delimiter with no
closing delimiter after it leaves the text unmodified from that point. -/
inductive MaskRel (op cl : List Char) (ph : Nat → List Char) :
    List Char → List Char → Prop where
  | noOpen (s : List Char) (h : ¬ ∃ x y, s = x ++ op ++ y) : MaskRel op cl ph s s
  | noClose (pre t : List Char)
      (hmin : ∀ x y, pre ++ op ++ t = x ++ op ++ y → pre.length ≤ x.length)
      (hcl : ¬ ∃ x y, t = x ++ cl ++ y) :
      MaskRel op cl ph (pre ++ op ++ t) (pre ++ op ++ t)
  | replace (pre mid rest out : List Char)
      (hopmin : ∀ x y, pre ++ op ++ mid ++ cl ++ rest = x ++ op ++ y →
        pre.length ≤ x.length)
      (hclmin : ∀ x y, mid ++ cl ++ rest = x ++ cl ++ y → mid.length ≤ x.length)
      (hrec : MaskRel op cl ph rest out) :
      MaskRel op cl ph (pre ++ op ++ mid ++ cl ++ rest)
        (pre ++ ph (countNewlines (op ++ mid ++ cl)) ++ out)

/-- The characters of the prefix shared by all unclosed-tag messages. -/
def unclosedMsgHead : List Char :=
  "Unclosed tag: <".data

/-- A diagnostic counts as an unclosed-tag diagnostic when its message
starts with `Unclosed tag: <`. -/
def isUnclosedDiag (d : Diag) : Bool :=
  matchesAt unclosedMsgHead d.message.data

/-- Number of unclosed-tag diagnostics of a list. -/
def countUnclosedDiags (l : List Diag) : Nat :=
  (l.filter isUnclosedDiag).length

/-- A diagnostic whose message names only non-void tags: either an
unclosed-tag message for a non-void name, or a mismatched-tag message both
of whose names are non-void. -/
def NamesNonVoid (d : Diag) : Prop :=
  (∃ nm, voidElements.contains nm = false ∧ d.message = mkUnclosedMsg nm) ∨
  (∃ a b, voidElements.contains a = false ∧ voidElements.contains b = false ∧
    d.message = mkMismatchMsg a b)

/-- The parse tree of `<div><p>hi</div>`: the inner `p` has no closing tag,
the outer `div` does. -/
def exDivUnclosedP : PNode :=
  PNode.mk (some "div") 0 16 (some 10) [PNode.mk (some "p") 5 10 none []]

/-- The parse tree of `<div><p>hi</p></div>`: everything properly closed. -/
def exWellClosed : PNode :=
  PNode.mk (some "div") 0 20 (some 14) [PNode.mk (some "p") 5 14 (some 10) []]

/-- The parse tree of a lone `<img src="x">`. -/
def exImg : PNode :=
  PNode.mk (some "img") 0 12 none []

/-- A node whose recorded end-tag-start offset is `0`, with an unclosed
child: exercises the difference between JavaScript `||` and `??` in the
frame recorded at push time. -/
def exZeroEts : PNode :=
  PNode.mk (some "div") 0 20 (some 0) [PNode.mk (some "p") 3 10 none []]

/-- Mutual induction principle for `PNode` and lists of `PNode`, packaged
from the nested recursor. -/
theorem PNode.mutualInduction (P : PNode → Prop) (Q : List PNode → Prop)
    (hmk : ∀ tag start endOff ets children,
      Q children → P (PNode.mk tag start endOff ets children))
    (hnil : Q [])
    (hcons : ∀ n ns, P n → Q ns → Q (n :: ns)) :
    (∀ n, P n) ∧ (∀ l, Q l) := by
  have h1 : ∀ n, P n := fun n => @PNode.rec P Q hmk hnil hcons n
  refine ⟨h1, fun l => ?_⟩
  induction l with
  | nil => exact hnil
  | cons a as ih => exact hcons a as (h1 a) ih

theorem validateNode_untagged (n : PNode) (st : VState) (h : n.tag = none) :
    validateNode n st = st := by
  cases n with
  | mk tag s e ets cs =>
    simp only [PNode.tag] at h
    subst h
    simp [validateNode]

theorem validateNodeList_cons (n : PNode) (ns : List PNode) (st : VState) :
    validateNodeList (n :: ns) st = validateNodeList ns (validateNode n st) := by
  by_cases h : n.tag.isSome
  · simp [validateNodeList, h]
  · have hn : n.tag = none := by
      cases hh : n.tag
      · rfl
      · simp [hh] at h
    simp [validateNodeList, h, validateNode_untagged n st hn]

theorem validate_length :
    (∀ n : PNode, ∀ st : VState,
      (validateNode n st).tagStack.length = unclosedCount n + st.tagStack.length) ∧
    (∀ l : List PNode, ∀ st : VState,
      (validateNodeList l st).tagStack.length = unclosedCountList l + st.tagStack.length) := by
  refine PNode.mutualInduction _ _ ?_ ?_ ?_
  · intro tag start endOff ets children ih st
    cases tag with
    | none => simp [validateNode, unclosedCount]
    | some t =>
      by_cases hv : toLowerStr t ∈ voidElements
      · simp [validateNode, unclosedCount, hv, ih]
      · cases ets with
        | none =>
          simp [validateNode, unclosedCount, hv, ih]
          omega
        | some e =>
          have hlen := ih { st with
            tagStack := ⟨toLowerStr t, start, jsOrFalsy (some e) endOff⟩ :: st.tagStack }
          simp only [validateNode, unclosedCount, hv, if_false, List.length_cons] at hlen ⊢
          cases hstk : (validateNodeList children { st with
              tagStack := ⟨toLowerStr t, start, jsOrFalsy (some e) endOff⟩ :: st.tagStack }).tagStack with
          | nil =>
            rw [hstk] at hlen
            simp at hlen
            omega
          | cons f rest =>
            rw [hstk] at hlen
            simp at hlen
            by_cases hne : f.name ≠ toLowerStr t
            · simp [hstk, hne, hv]
              omega
            · simp [hstk, hne, hv]
              omega
  · intro st
    simp [validateNodeList, unclosedCountList]
  · intro n ns ihn ihl st
    rw [validateNodeList_cons]
    rw [ihl, ihn]
    simp [unclosedCountList]
    omega

theorem validateNodeList_length (l : List PNode) (st : VState) :
    (validateNodeList l st).tagStack.length = unclosedCountList l + st.tagStack.length :=
  validate_length.2 l st

theorem validateNodeStrict_untagged (n : PNode) (st : VState) (h : n.tag = none) :
    validateNodeStrict n st = st := by
  cases n with
  | mk tag s e ets cs =>
    simp only [PNode.tag] at h
    subst h
    simp [validateNodeStrict]

theorem validateNodeListStrict_cons (n : PNode) (ns : List PNode) (st : VState) :
    validateNodeListStrict (n :: ns) st = validateNodeListStrict ns (validateNodeStrict n st) := by
  by_cases h : n.tag.isSome
  · simp [validateNodeListStrict, h]
  · have hn : n.tag = none := by
      cases hh : n.tag
      · rfl
      · simp [hh] at h
    simp [validateNodeListStrict, h, validateNodeStrict_untagged n st hn]

theorem validate_strict_eq :
    (∀ n : PNode, ∀ st : VState, validateNodeStrict n st = validateNode n st) ∧
    (∀ l : List PNode, ∀ st : VState, validateNodeListStrict l st = validateNodeList l st) := by
  refine PNode.mutualInduction _ _ ?_ ?_ ?_
  · intro tag start endOff ets children ih st
    cases tag with
    | none => simp [validateNode, validateNodeStrict]
    | some t =>
      by_cases hv : toLowerStr t ∈ voidElements
      · simp [validateNode, validateNodeStrict, hv, ih]
      · cases ets with
        | none => simp [validateNode, validateNodeStrict, hv, ih]
        | some e =>
          have hlen := validateNodeList_length children { st with
            tagStack := ⟨toLowerStr t, start, jsOrFalsy (some e) endOff⟩ :: st.tagStack }
          have hvb : voidElements.contains (toLowerStr t) = false := by simpa using hv
          simp only [validateNode, validateNodeStrict, ih, hvb, Bool.false_eq_true, if_false]
          cases hstk : (validateNodeList children { st with
              tagStack := ⟨toLowerStr t, start, jsOrFalsy (some e) endOff⟩ :: st.tagStack }).tagStack with
          | nil =>
            exfalso
            rw [hstk] at hlen
            simp at hlen
            omega
          | cons f rest => simp [hstk]
  · intro st
    simp [validateNodeList, validateNodeListStrict]
  · intro n ns ihn ihl st
    rw [validateNodeList_cons, validateNodeListStrict_cons, ihn, ihl]

theorem validate_good_eq :
    (∀ n : PNode, ∀ st : VState, goodNode n = true → validateNode n st = st) ∧
    (∀ l : List PNode, ∀ st : VState, goodNodeList l = true → validateNodeList l st = st) := by
  refine PNode.mutualInduction _ _ ?_ ?_ ?_
  · intro tag start endOff ets children ih st hg
    cases tag with
    | none => simp [validateNode]
    | some t =>
      simp only [goodNode, Bool.and_eq_true, Bool.not_eq_true'] at hg
      obtain ⟨⟨hv, hets⟩, hch⟩ := hg
      have hv' : ¬ (toLowerStr t ∈ voidElements) := by
        simpa using hv
      cases ets with
      | none => simp at hets
      | some e =>
        simp only [validateNode, hv', if_false]
        rw [ih _ hch]
        simp [hv']
  · intro st _
    simp [validateNodeList]
  · intro n ns ihn ihl st hg
    simp only [goodNodeList, Bool.and_eq_true] at hg
    rw [validateNodeList_cons, ihn _ hg.1, ihl _ hg.2]

theorem validate_frames :
    (∀ n : PNode, ∀ st : VState, ∀ f : TagFrame,
      f ∈ (validateNode n st).tagStack → f ∈ framesOf n ∨ f ∈ st.tagStack) ∧
    (∀ l : List PNode, ∀ st : VState, ∀ f : TagFrame,
      f ∈ (validateNodeList l st).tagStack → f ∈ framesOfList l ∨ f ∈ st.tagStack) := by
  refine PNode.mutualInduction _ _ ?_ ?_ ?_
  · intro tag start endOff ets children ih st f hf
    cases tag with
    | none =>
      simp only [validateNode] at hf
      exact Or.inr hf
    | some t =>
      by_cases hv : toLowerStr t ∈ voidElements
      · simp only [validateNode] at hf
        have hvb : voidElements.contains (toLowerStr t) = true := by simpa using hv
        rw [hvb] at hf
        simp only [if_true] at hf
        rcases ih _ _ hf with h | h
        · left
          simp [framesOf, hvb, h]
        · exact Or.inr h
      · have hvb : voidElements.contains (toLowerStr t) = false := by simpa using hv
        have hframes : ∀ g : TagFrame,
            g ∈ (validateNodeList children { st with
              tagStack := ⟨toLowerStr t, start, jsOrFalsy ets endOff⟩ :: st.tagStack }).tagStack →
            g ∈ framesOf (PNode.mk (some t) start endOff ets children) ∨ g ∈ st.tagStack := by
          intro g hg
          rcases ih _ _ hg with h | h
          · left
            simp only [framesOf, hvb, Bool.false_eq_true, if_false, List.singleton_append]
            exact List.mem_cons_of_mem _ h
          · rcases List.mem_cons.mp h with h | h
            · left
              simp only [h, framesOf, hvb, Bool.false_eq_true, if_false, List.singleton_append]
              exact List.mem_cons_self _ _
            · exact Or.inr h
        simp only [validateNode, hvb, Bool.false_eq_true, if_false] at hf
        cases ets with
        | none => exact hframes f hf
        | some e =>
          cases hstk : (validateNodeList children { st with
              tagStack := ⟨toLowerStr t, start, jsOrFalsy (some e) endOff⟩ :: st.tagStack }).tagStack with
          | nil =>
            exfalso
            have hlen := validateNodeList_length children { st with
              tagStack := ⟨toLowerStr t, start, jsOrFalsy (some e) endOff⟩ :: st.tagStack }
            rw [hstk] at hlen
            simp at hlen
            omega
          | cons g rest =>
            rw [hstk] at hf
            have hfr : f ∈ rest := by
              by_cases hne : g.name ≠ toLowerStr t
              · simpa [hne] using hf
              · simpa [hne] using hf
            exact hframes f (by rw [hstk]; exact List.mem_cons_of_mem _ hfr)
  · intro st f hf
    simp only [validateNodeList] at hf
    exact Or.inr hf
  · intro n ns ihn ihl st f hf
    rw [validateNodeList_cons] at hf
    rcases ihl _ _ hf with h | h
    · left
      simp [framesOfList, h]
    · rcases ihn _ _ h with h2 | h2
      · left
        simp [framesOfList, h2]
      · exact Or.inr h2

theorem framesOf_nonvoid :
    (∀ n : PNode, ∀ f : TagFrame, f ∈ framesOf n → voidElements.contains f.name = false) ∧
    (∀ l : List PNode, ∀ f : TagFrame, f ∈ framesOfList l → voidElements.contains f.name = false) := by
  refine PNode.mutualInduction _ _ ?_ ?_ ?_
  · intro tag start endOff ets children ih f hf
    cases tag with
    | none => simp [framesOf] at hf
    | some t =>
      by_cases hv : toLowerStr t ∈ voidElements
      · have hvb : voidElements.contains (toLowerStr t) = true := by simpa using hv
        simp only [framesOf, hvb, if_true, List.nil_append] at hf
        exact ih f hf
      · have hvb : voidElements.contains (toLowerStr t) = false := by simpa using hv
        simp only [framesOf, hvb, Bool.false_eq_true, if_false, List.singleton_append] at hf
        rcases List.mem_cons.mp hf with h | h
        · rw [h]
          exact hvb
        · exact ih f h
  · intro f hf
    simp [framesOfList] at hf
  · intro n ns ihn ihl f hf
    simp only [framesOfList] at hf
    rcases List.mem_append.mp hf with h | h
    · exact ihn f h
    · exact ihl f h

theorem validateNodeList_stack_nonvoid (l : List PNode) (st : VState)
    (h : ∀ f ∈ st.tagStack, voidElements.contains f.name = false) :
    ∀ f ∈ (validateNodeList l st).tagStack, voidElements.contains f.name = false := by
  intro f hf
  rcases validate_frames.2 l st f hf with h1 | h1
  · exact framesOf_nonvoid.2 l f h1
  · exact h f h1

theorem validate_diag_inv (P : Diag → Prop)
    (hP : ∀ (a b : String) (s e : Nat), voidElements.contains a = false →
      voidElements.contains b = false →
      P ⟨s, e, mkMismatchMsg a b, Severity.error⟩) :
    (∀ n : PNode, ∀ st : VState,
      (∀ f ∈ st.tagStack, voidElements.contains f.name = false) →
      (∀ d ∈ st.diagnostics, P d) →
      ∀ d ∈ (validateNode n st).diagnostics, P d) ∧
    (∀ l : List PNode, ∀ st : VState,
      (∀ f ∈ st.tagStack, voidElements.contains f.name = false) →
      (∀ d ∈ st.diagnostics, P d) →
      ∀ d ∈ (validateNodeList l st).diagnostics, P d) := by
  refine PNode.mutualInduction _ _ ?_ ?_ ?_
  · intro tag start endOff ets children ih st hstack hdiag d hd
    cases tag with
    | none =>
      simp only [validateNode] at hd
      exact hdiag d hd
    | some t =>
      by_cases hv : toLowerStr t ∈ voidElements
      · have hvb : voidElements.contains (toLowerStr t) = true := by simpa using hv
        simp only [validateNode, hvb, if_true] at hd
        exact ih st hstack hdiag d hd
      · have hvb : voidElements.contains (toLowerStr t) = false := by simpa using hv
        have hstack1 : ∀ f ∈ ({ st with
            tagStack := ⟨toLowerStr t, start, jsOrFalsy ets endOff⟩ :: st.tagStack } :
              VState).tagStack, voidElements.contains f.name = false := by
          intro f hf
          rcases List.mem_cons.mp hf with h | h
          · rw [h]
            exact hvb
          · exact hstack f h
        have hdiag2 : ∀ d ∈ (validateNodeList children { st with
            tagStack := ⟨toLowerStr t, start, jsOrFalsy ets endOff⟩ ::
              st.tagStack }).diagnostics, P d :=
          ih _ hstack1 hdiag
        have hstack2 : ∀ f ∈ (validateNodeList children { st with
            tagStack := ⟨toLowerStr t, start, jsOrFalsy ets endOff⟩ ::
              st.tagStack }).tagStack, voidElements.contains f.name = false :=
          validateNodeList_stack_nonvoid children _ hstack1
        simp only [validateNode, hvb, Bool.false_eq_true, if_false] at hd
        cases ets with
        | none => exact hdiag2 d hd
        | some e =>
          cases hstk : (validateNodeList children { st with
              tagStack := ⟨toLowerStr t, start, jsOrFalsy (some e) endOff⟩ ::
                st.tagStack }).tagStack with
          | nil =>
            rw [hstk] at hd
            exact hdiag2 d hd
          | cons f rest =>
            rw [hstk] at hd
            have hfm : voidElements.contains f.name = false := by
              refine hstack2 f ?_
              rw [hstk]
              exact List.mem_cons_self _ _
            by_cases hne : f.name ≠ toLowerStr t
            · simp [hne] at hd
              rcases hd with h | h
              · exact hdiag2 d h
              · rw [h]
                exact hP f.name (toLowerStr t) start e hfm hvb
            · simp [hne] at hd
              exact hdiag2 d hd
  · intro st _ hdiag d hd
    simp only [validateNodeList] at hd
    exact hdiag d hd
  · intro n ns ihn ihl st hstack hdiag d hd
    rw [validateNodeList_cons] at hd
    refine ihl (validateNode n st) ?_ ?_ d hd
    · intro f hf
      rcases validate_frames.1 n st f hf with h1 | h1
      · exact framesOf_nonvoid.1 n f h1
      · exact hstack f h1
    · exact ihn st hstack hdiag

theorem matchesAt_iff (pat s : List Char) :
    matchesAt pat s = true ↔ ∃ r, s = pat ++ r := by
  induction pat generalizing s with
  | nil => simp [matchesAt]
  | cons p ps ih =>
    cases s with
    | nil =>
      simp [matchesAt]
    | cons c cs =>
      simp only [matchesAt, Bool.and_eq_true, decide_eq_true_eq, ih]
      constructor
      · rintro ⟨hpc, r, hr⟩
        exact ⟨r, by simp [hpc, hr]⟩
      · rintro ⟨r, hr⟩
        simp only [List.cons_append, List.cons.injEq] at hr
        exact ⟨hr.1.symm, r, hr.2⟩

theorem matchesAt_append_self (pat r : List Char) :
    matchesAt pat (pat ++ r) = true :=
  (matchesAt_iff pat (pat ++ r)).mpr ⟨r, rfl⟩

theorem findSub_some_decomp (pat : List Char) :
    ∀ (s : List Char) (i : Nat), findSub pat s = some i →
      ∃ x y, s = x ++ pat ++ y ∧ x.length = i := by
  intro s
  induction s with
  | nil => intro i h; simp [findSub] at h
  | cons c cs ih =>
    intro i h
    by_cases hm : matchesAt pat (c :: cs) = true
    · simp only [findSub, hm, if_true, Option.some.injEq] at h
      obtain ⟨r, hr⟩ := (matchesAt_iff pat (c :: cs)).mp hm
      exact ⟨[], r, by simpa using hr, by simp [← h]⟩
    · simp only [findSub, hm, Bool.false_eq_true, if_false, Option.map_eq_some'] at h
      obtain ⟨j, hj, hij⟩ := h
      obtain ⟨x, y, hxy, hlen⟩ := ih j hj
      exact ⟨c :: x, y, by simp [hxy], by simp [hlen, ← hij]⟩

theorem findSub_some_min (pat : List Char) :
    ∀ (s : List Char) (i : Nat), findSub pat s = some i →
      ∀ x y, s = x ++ pat ++ y → i ≤ x.length := by
  intro s
  induction s with
  | nil => intro i h; simp [findSub] at h
  | cons c cs ih =>
    intro i h x y hxy
    by_cases hm : matchesAt pat (c :: cs) = true
    · simp only [findSub, hm, if_true, Option.some.injEq] at h
      omega
    · simp only [findSub, hm, Bool.false_eq_true, if_false, Option.map_eq_some'] at h
      obtain ⟨j, hj, hij⟩ := h
      cases x with
      | nil =>
        exfalso
        apply hm
        exact (matchesAt_iff pat (c :: cs)).mpr ⟨y, by simpa using hxy⟩
      | cons c0 x0 =>
        simp only [List.cons_append, List.cons.injEq] at hxy
        have := ih j hj x0 y hxy.2
        simp only [List.length_cons]
        omega

theorem findSub_none (pat : List Char) (hp : pat ≠ []) :
    ∀ s : List Char, findSub pat s = none → ¬ ∃ x y, s = x ++ pat ++ y := by
  intro s
  induction s with
  | nil =>
    rintro - ⟨x, y, hxy⟩
    rcases List.append_eq_nil.mp hxy.symm with ⟨h1, h2⟩
    rcases List.append_eq_nil.mp h1 with ⟨-, h3⟩
    exact hp h3
  | cons c cs ih =>
    intro h
    by_cases hm : matchesAt pat (c :: cs) = true
    · simp [findSub, hm] at h
    · simp only [findSub, hm, Bool.false_eq_true, if_false, Option.map_eq_none'] at h
      rintro ⟨x, y, hxy⟩
      cases x with
      | nil =>
        exact hm ((matchesAt_iff pat (c :: cs)).mpr ⟨y, by simpa using hxy⟩)
      | cons c0 x0 =>
        simp only [List.cons_append, List.cons.injEq] at hxy
        exact ih h ⟨x0, y, hxy.2⟩

theorem splitAtSub_some_decomp (pat s pre post : List Char)
    (h : splitAtSub pat s = some (pre, post)) :
    s = pre ++ pat ++ post := by
  simp only [splitAtSub, Option.map_eq_some'] at h
  obtain ⟨i, hi, heq⟩ := h
  obtain ⟨x, y, hxy, hlen⟩ := findSub_some_decomp pat s i hi
  have hpre : s.take i = pre := congrArg Prod.fst heq
  have hpost : s.drop (i + pat.length) = post := congrArg Prod.snd heq
  subst hxy
  subst hlen
  have ht : (x ++ pat ++ y).take x.length = x := by
    rw [List.append_assoc]
    exact List.take_left x (pat ++ y)
  have hd : (x ++ pat ++ y).drop (x.length + pat.length) = y := by
    have h2 := List.drop_left (x ++ pat) y
    simp only [List.length_append] at h2
    exact h2
  rw [← hpre, ← hpost, ht, hd]

theorem splitAtSub_some_min (pat s pre post : List Char)
    (h : splitAtSub pat s = some (pre, post)) :
    ∀ x y, s = x ++ pat ++ y → pre.length ≤ x.length := by
  intro x y hxy
  simp only [splitAtSub, Option.map_eq_some'] at h
  obtain ⟨i, hi, heq⟩ := h
  have hpre : s.take i = pre := congrArg Prod.fst heq
  have hlen : pre.length ≤ i := by
    rw [← hpre]
    simp [List.length_take]
  have := findSub_some_min pat s i hi x y hxy
  omega

theorem splitAtSub_none (pat s : List Char) (hp : pat ≠ [])
    (h : splitAtSub pat s = none) : ¬ ∃ x y, s = x ++ pat ++ y := by
  simp only [splitAtSub, Option.map_eq_none'] at h
  exact findSub_none pat hp s h

theorem minShift (op : List Char) (c : Char) (s pre : List Char)
    (hm : ¬ matchesAt op (c :: s) = true)
    (hmin : ∀ x y, s = x ++ op ++ y → pre.length ≤ x.length) :
    ∀ x y, c :: s = x ++ op ++ y → (c :: pre).length ≤ x.length := by
  intro x y hxy
  cases x with
  | nil =>
    exfalso
    apply hm
    exact (matchesAt_iff op (c :: s)).mpr ⟨y, by simpa using hxy⟩
  | cons c0 x0 =>
    simp only [List.cons_append, List.cons.injEq] at hxy
    have := hmin x0 y hxy.2
    simp only [List.length_cons]
    omega

theorem noOccShift (op : List Char) (c : Char) (s : List Char)
    (hm : ¬ matchesAt op (c :: s) = true)
    (h : ¬ ∃ x y, s = x ++ op ++ y) : ¬ ∃ x y, c :: s = x ++ op ++ y := by
  rintro ⟨x, y, hxy⟩
  cases x with
  | nil => exact hm ((matchesAt_iff op (c :: s)).mpr ⟨y, by simpa using hxy⟩)
  | cons c0 x0 =>
    simp only [List.cons_append, List.cons.injEq] at hxy
    exact h ⟨x0, y, hxy.2⟩

theorem MaskRel.consStep (op cl : List Char) (ph : Nat → List Char) (c : Char)
    (s t : List Char) (hm : ¬ matchesAt op (c :: s) = true)
    (hrel : MaskRel op cl ph s t) : MaskRel op cl ph (c :: s) (c :: t) := by
  cases hrel with
  | noOpen s h => exact MaskRel.noOpen (c :: s) (noOccShift op c s hm h)
  | noClose pre t0 hmin hcl =>
    have h2 := @MaskRel.noClose op cl ph (c :: pre) t0 (minShift op c _ pre hm hmin) hcl
    simp only [List.cons_append] at h2
    exact h2
  | replace pre mid rest out hopmin hclmin hrec =>
    have h2 := MaskRel.replace (c :: pre) mid rest out
      (minShift op c _ pre hm hopmin) hclmin hrec
    simp only [List.cons_append] at h2
    simpa using h2

theorem maskScan_nil (o1 o2 c1 c2 : Char) (ph : Nat → List Char) :
    maskScan o1 o2 c1 c2 ph [] = [] := by
  rw [maskScan]

theorem maskScan_one (o1 o2 c1 c2 : Char) (ph : Nat → List Char) (c : Char) :
    maskScan o1 o2 c1 c2 ph [c] = [c] := by
  rw [maskScan]

theorem maskScan_cons2 (o1 o2 c1 c2 : Char) (ph : Nat → List Char) (a b : Char)
    (rest : List Char) :
    maskScan o1 o2 c1 c2 ph (a :: b :: rest) =
      if a = o1 ∧ b = o2 then
        match splitAtSub [c1, c2] rest with
        | some (mid, post) =>
          ph (countNewlines ([o1, o2] ++ mid ++ [c1, c2])) ++ maskScan o1 o2 c1 c2 ph post
        | none => a :: b :: rest
      else a :: maskScan o1 o2 c1 c2 ph (b :: rest) := by
  rw [maskScan]
  cases hsp : splitAtSub [c1, c2] rest with
  | none => simp [hsp]
  | some mp =>
    obtain ⟨mid, post⟩ := mp
    simp [hsp]

theorem maskScan_maskRel (o1 o2 c1 c2 : Char) (ph : Nat → List Char) (s : List Char) :
    MaskRel [o1, o2] [c1, c2] ph s (maskScan o1 o2 c1 c2 ph s) := by
  have main : ∀ (N : Nat) (s : List Char), s.length ≤ N →
      MaskRel [o1, o2] [c1, c2] ph s (maskScan o1 o2 c1 c2 ph s) := by
    intro N
    induction N with
    | zero =>
      intro s hs
      have hnil : s = [] := List.length_eq_zero.mp (Nat.le_zero.mp hs)
      subst hnil
      rw [maskScan_nil]
      refine MaskRel.noOpen [] ?_
      rintro ⟨x, y, hxy⟩
      simp at hxy
    | succ N ih =>
      intro s hs
      match s with
      | [] =>
        rw [maskScan_nil]
        refine MaskRel.noOpen [] ?_
        rintro ⟨x, y, hxy⟩
        simp at hxy
      | [c] =>
        rw [maskScan_one]
        refine MaskRel.noOpen [c] ?_
        rintro ⟨x, y, hxy⟩
        have hl := congrArg List.length hxy
        simp at hl
        omega
      | a :: b :: rest =>
        rw [maskScan_cons2]
        by_cases hab : a = o1 ∧ b = o2
        · rw [if_pos hab]
          cases hsp : splitAtSub [c1, c2] rest with
          | none =>
            have hcl := splitAtSub_none [c1, c2] rest (by simp) hsp
            have h2 := @MaskRel.noClose [o1, o2] [c1, c2] ph [] rest
              (by intro x y _; simp) hcl
            simpa [hab.1, hab.2] using h2
          | some mp =>
            obtain ⟨mid, post⟩ := mp
            have hdec := splitAtSub_some_decomp [c1, c2] rest mid post hsp
            have hmin := splitAtSub_some_min [c1, c2] rest mid post hsp
            have hplen : post.length ≤ N := by
              have hld := congrArg List.length hdec
              simp only [List.length_cons] at hs
              simp [List.length_append] at hld
              omega
            have hrec := ih post hplen
            rw [hdec] at hmin
            have h2 := MaskRel.replace ([] : List Char) mid post
              (maskScan o1 o2 c1 c2 ph post) (by intro x y _; simp) hmin hrec
            simpa [hab.1, hab.2, hdec] using h2
        · rw [if_neg hab]
          have hmb : (b :: rest).length ≤ N := by
            simp only [List.length_cons] at hs ⊢
            omega
          have hrec := ih (b :: rest) hmb
          refine MaskRel.consStep [o1, o2] [c1, c2] ph a (b :: rest) _ ?_ hrec
          intro hmm
          simp only [matchesAt, Bool.and_eq_true, decide_eq_true_eq] at hmm
          exact hab ⟨hmm.1.symm, hmm.2.1.symm⟩
  exact main s.length s le_rfl

theorem maskScan_unterminated (o1 o2 c1 c2 : Char) (ph : Nat → List Char) :
    ∀ (s pre t : List Char), splitAtSub [o1, o2] s = some (pre, t) →
      splitAtSub [c1, c2] t = none → maskScan o1 o2 c1 c2 ph s = s := by
  have main : ∀ (N : Nat) (s pre t : List Char), s.length ≤ N →
      splitAtSub [o1, o2] s = some (pre, t) →
      splitAtSub [c1, c2] t = none → maskScan o1 o2 c1 c2 ph s = s := by
    intro N
    induction N with
    | zero =>
      intro s pre t hlen hsp _
      have hnil : s = [] := List.length_eq_zero.mp (Nat.le_zero.mp hlen)
      subst hnil
      simp [splitAtSub, findSub] at hsp
    | succ N ih =>
      intro s pre t hlen hsp hcl
      match s with
      | [] => simp [splitAtSub, findSub] at hsp
      | [c] => simp [splitAtSub, findSub, matchesAt] at hsp
      | a :: b :: rest =>
        rw [maskScan_cons2]
        by_cases hab : a = o1 ∧ b = o2
        · rw [if_pos hab]
          have hm : matchesAt [o1, o2] (a :: b :: rest) = true := by
            simp [matchesAt, hab.1, hab.2]
          have ht : t = rest := by
            simp only [splitAtSub, findSub, hm, if_true, Option.map_some',
              Option.some.injEq] at hsp
            have := congrArg Prod.snd hsp
            simp at this
            exact this.symm
          rw [ht] at hcl
          rw [hcl]
        · rw [if_neg hab]
          have hm : ¬ matchesAt [o1, o2] (a :: b :: rest) = true := by
            intro hmm
            simp only [matchesAt, Bool.and_eq_true, decide_eq_true_eq] at hmm
            exact hab ⟨hmm.1.symm, hmm.2.1.symm⟩
          have hfs : findSub [o1, o2] (a :: b :: rest) =
              (findSub [o1, o2] (b :: rest)).map (· + 1) := by
            simp [findSub, hm]
          simp only [splitAtSub, hfs, Option.map_map, Option.map_eq_some'] at hsp
          obtain ⟨i, hi, heq⟩ := hsp
          have ht : (a :: b :: rest).drop (i + 1 + [o1, o2].length) = t := by
            have := congrArg Prod.snd heq
            simpa using this
          have hlen2 : ([o1, o2] : List Char).length = 2 := rfl
          rw [hlen2] at ht
          rw [show i + 1 + 2 = (i + 2) + 1 from by omega] at ht
          rw [List.drop_succ_cons] at ht
          have ht2 : rest.drop (i + 1) = t := by
            rw [← ht]
            rw [show i + 2 = (i + 1) + 1 from by omega]
            rw [List.drop_succ_cons]
          have hsp2 : splitAtSub [o1, o2] (b :: rest) = some ((b :: rest).take i, t) := by
            simp [splitAtSub, hi, hlen2, ht2]
          have hrec := ih (b :: rest) ((b :: rest).take i) t
            (by simp only [List.length_cons] at hlen ⊢; omega) hsp2 hcl
          rw [hrec]
  intro s pre t hsp hcl
  exact main s.length s pre t le_rfl hsp hcl

theorem isUnclosedDiag_unclosedMsg (nm : String) (s e : Nat) (sev : Severity) :
    isUnclosedDiag ⟨s, e, mkUnclosedMsg nm, sev⟩ = true := by
  simp only [isUnclosedDiag, mkUnclosedMsg, unclosedMsgHead]
  rw [String.data_append, String.data_append, List.append_assoc]
  exact matchesAt_append_self _ _

theorem isUnclosedDiag_mismatchMsg (a b : String) (s e : Nat) (sev : Severity) :
    isUnclosedDiag ⟨s, e, mkMismatchMsg a b, sev⟩ = false := by
  simp only [isUnclosedDiag, mkMismatchMsg, unclosedMsgHead]
  rw [String.data_append, String.data_append, String.data_append, String.data_append]
  rw [show ("Mismatched tag: expected </").data =
    'M' :: "ismatched tag: expected </".data from rfl]
  simp [matchesAt]

/-- C1: for every document tree consisting only of properly nested, properly
closed, non-void tags (every traversed tagged node is non-void, carries a
recorded end-tag-start, and its frame matches at pop time by construction),
the validator finishes with an empty tag stack and emits no diagnostic at
all: `validateDocumentCore` returns the empty list. -/
theorem claim1_good_document_no_diagnostics (roots : List PNode)
    (h : goodNodeList roots = true) :
    validateNodeList roots ⟨[], []⟩ = ⟨[], []⟩ ∧ validateDocumentCore roots = [] := by
  have h1 := validate_good_eq.2 roots ⟨[], []⟩ h
  refine ⟨h1, ?_⟩
  simp [validateDocumentCore, h1]

/-- Witness for C1 at the parse tree of `<div><p>hi</p></div>`. -/
theorem claim1_good_document_no_diagnostics_witness :
    goodNodeList [exWellClosed] = true ∧ validateDocumentCore [exWellClosed] = [] :=
  ⟨by decide, (claim1_good_document_no_diagnostics [exWellClosed] (by decide)).2⟩

/-- C8: `preprocessTwig` is deterministic — two calls on identical input
text produce identical output strings. -/
theorem claim8_preprocess_deterministic (s t : String) (h : s = t) :
    preprocessTwig s = preprocessTwig t :=
  congrArg preprocessTwig h

/-- Witness for C8 at a concrete input. -/
theorem claim8_preprocess_deterministic_witness :
    ("\x7b% x %\x7d" : String) = "\x7b% x %\x7d" ∧
    preprocessTwig "\x7b% x %\x7d" = preprocessTwig "\x7b% x %\x7d" :=
  ⟨rfl, claim8_preprocess_deterministic "\x7b% x %\x7d" "\x7b% x %\x7d" rfl⟩

/-- C9: when the HTML language service or the diagnostic collection has not
been initialized, `validateDocument` returns without effect: the previously
recorded diagnostic collection is returned unchanged. -/
theorem claim9_uninitialized_noop (hls dc : Bool) (uri : String) (roots : List PNode)
    (coll : List (String × List Diag)) (h : hls = false ∨ dc = false) :
    validateDocumentJS hls dc uri roots coll = coll := by
  rw [validateDocumentJS, if_pos h]

/-- Witness for C9: a missing diagnostic collection leaves a previously
recorded collection unchanged. -/
theorem claim9_uninitialized_noop_witness :
    ((true : Bool) = false ∨ (false : Bool) = false) ∧
    validateDocumentJS true false "file.twig" [exImg]
      [("old.twig", [⟨0, 1, mkUnclosedMsg "p", Severity.error⟩])] =
      [("old.twig", [⟨0, 1, mkUnclosedMsg "p", Severity.error⟩])] :=
  ⟨Or.inr rfl, claim9_uninitialized_noop true false "file.twig" [exImg]
    [("old.twig", [⟨0, 1, mkUnclosedMsg "p", Severity.error⟩])] (Or.inr rfl)⟩

/-- C10: starting from any state — in particular the empty stack
`validateDocument` starts with — the pop in `validateNode` never finds an
empty stack: the validator is extensionally equal to the strict variant that
flags every pop of an empty stack with a sentinel diagnostic, so the
`lastTag &&` guard never suppresses a mismatch check. -/
theorem claim10_pop_never_empty :
    (∀ (n : PNode) (st : VState), validateNodeStrict n st = validateNode n st) ∧
    (∀ (roots : List PNode) (st : VState),
      validateNodeListStrict roots st = validateNodeList roots st) :=
  ⟨validate_strict_eq.1, validate_strict_eq.2⟩

/-- C2 counterexample: the parse tree of `<div><p>hi</div>` has exactly one
unclosed non-void tag, the inner `p` (`endTagStart = none`), yet the single
Unclosed-tag diagnostic emitted names `div`, not `p`: no diagnostic with
message `Unclosed tag: <p>` exists in the output. -/
theorem claim2_unclosed_naming_counterexample :
    unclosedCountList [exDivUnclosedP] = 1 ∧
    exDivUnclosedP = PNode.mk (some "div") 0 16 (some 10)
      [PNode.mk (some "p") 5 10 none []] ∧
    validateDocumentCore [exDivUnclosedP] =
      [⟨0, 10, mkMismatchMsg "p" "div", Severity.error⟩,
       ⟨0, 10, mkUnclosedMsg "div", Severity.error⟩] ∧
    ¬ mkUnclosedMsg "p" ∈ (validateDocumentCore [exDivUnclosedP]).map Diag.message :=
  ⟨by decide, rfl, by decide, by decide⟩

/-- C2 amended: for every document tree containing exactly one unclosed
non-void tag, the validator emits exactly one Unclosed-tag diagnostic — but
that diagnostic names the tag whose frame survives the mismatch pops, which
can be an enclosing tag rather than the unclosed one (see the
counterexample). -/
theorem claim2_one_unclosed_diagnostic (roots : List PNode)
    (h : unclosedCountList roots = 1) :
    countUnclosedDiags (validateDocumentCore roots) = 1 := by
  have hw := validate_diag_inv (fun d => isUnclosedDiag d = false)
    (fun a b s e _ _ => isUnclosedDiag_mismatchMsg a b s e Severity.error)
  have hwalk : ∀ d ∈ (validateNodeList roots ⟨[], []⟩).diagnostics,
      isUnclosedDiag d = false :=
    hw.2 roots ⟨[], []⟩ (by intro f hf; simp at hf) (by intro d hd; simp at hd)
  have hlen := validateNodeList_length roots ⟨[], []⟩
  simp only [List.length_nil, Nat.add_zero] at hlen
  rw [validateDocumentCore, countUnclosedDiags]
  rw [List.filter_append, List.length_append]
  have h0 : (validateNodeList roots ⟨[], []⟩).diagnostics.filter isUnclosedDiag = [] :=
    List.filter_eq_nil_iff.mpr (by intro d hd; simp [hwalk d hd])
  have h1 : ((validateNodeList roots ⟨[], []⟩).tagStack.reverse.map
      (fun f => (⟨f.start, f.endOff, mkUnclosedMsg f.name, Severity.error⟩ : Diag))).filter
        isUnclosedDiag =
      (validateNodeList roots ⟨[], []⟩).tagStack.reverse.map
        (fun f => (⟨f.start, f.endOff, mkUnclosedMsg f.name, Severity.error⟩ : Diag)) := by
    refine List.filter_eq_self.mpr ?_
    intro d hd
    rw [List.mem_map] at hd
    obtain ⟨f, -, hf⟩ := hd
    rw [← hf]
    simp [isUnclosedDiag_unclosedMsg]
  rw [h0, h1]
  simp [hlen, h]

/-- Witness for the amended C2 at the parse tree of `<div><p>hi</div>`. -/
theorem claim2_one_unclosed_diagnostic_witness :
    unclosedCountList [exDivUnclosedP] = 1 ∧
    countUnclosedDiags (validateDocumentCore [exDivUnclosedP]) = 1 :=
  ⟨by decide, claim2_one_unclosed_diagnostic [exDivUnclosedP] (by decide)⟩

/-- C3: when a non-void tagged node carries a recorded end-tag-start, the
stack reached after traversing its children is non-empty, exactly one frame
is popped from it (the result stack is precisely the remaining frames), and
exactly one Mismatched-tag diagnostic is appended iff the popped frame's name
differs from the current lowercased tag name, with message
`Mismatched tag: expected </popped>, found </current>` and range from the
node's start offset to its end-tag-start offset. -/
theorem claim3_pop_exactly_one (t : String) (start endOff e : Nat)
    (children : List PNode) (st : VState)
    (hv : voidElements.contains (toLowerStr t) = false) :
    ∃ f rest,
      (validateNodeList children { st with
        tagStack := ⟨toLowerStr t, start, jsOrFalsy (some e) endOff⟩ ::
          st.tagStack }).tagStack = f :: rest ∧
      validateNode (PNode.mk (some t) start endOff (some e) children) st =
        { diagnostics := (validateNodeList children { st with
            tagStack := ⟨toLowerStr t, start, jsOrFalsy (some e) endOff⟩ ::
              st.tagStack }).diagnostics ++
            (if f.name ≠ toLowerStr t then
              [⟨start, e, mkMismatchMsg f.name (toLowerStr t), Severity.error⟩] else []),
          tagStack := rest } := by
  have hlen := validateNodeList_length children { st with
    tagStack := ⟨toLowerStr t, start, jsOrFalsy (some e) endOff⟩ :: st.tagStack }
  cases hstk : (validateNodeList children { st with
      tagStack := ⟨toLowerStr t, start, jsOrFalsy (some e) endOff⟩ ::
        st.tagStack }).tagStack with
  | nil =>
    exfalso
    rw [hstk] at hlen
    simp at hlen
    omega
  | cons f rest =>
    refine ⟨f, rest, rfl, ?_⟩
    simp only [validateNode, hv, Bool.false_eq_true, if_false]
    rw [hstk]
    by_cases hne : f.name ≠ toLowerStr t
    · simp [hne]
    · simp [hne]

/-- Witness for C3 at a concrete closed `div` node with no children. -/
theorem claim3_pop_exactly_one_witness :
    voidElements.contains (toLowerStr "div") = false ∧
    ∃ f rest,
      (validateNodeList [] { (⟨[], []⟩ : VState) with
        tagStack := ⟨toLowerStr "div", 0, jsOrFalsy (some 10) 16⟩ ::
          (⟨[], []⟩ : VState).tagStack }).tagStack = f :: rest ∧
      validateNode (PNode.mk (some "div") 0 16 (some 10) []) ⟨[], []⟩ =
        { diagnostics := (validateNodeList [] { (⟨[], []⟩ : VState) with
            tagStack := ⟨toLowerStr "div", 0, jsOrFalsy (some 10) 16⟩ ::
              (⟨[], []⟩ : VState).tagStack }).diagnostics ++
            (if f.name ≠ toLowerStr "div" then
              [⟨0, 10, mkMismatchMsg f.name (toLowerStr "div"), Severity.error⟩] else []),
          tagStack := rest } :=
  ⟨by decide, claim3_pop_exactly_one "div" 0 16 10 [] ⟨[], []⟩ (by decide)⟩

/-- C4 counterexample: a node with `endTagStart = some 0` and `end = 20`
whose frame survives to the report phase.  JavaScript `||` treats the zero
offset as absent, so the recorded frame end — and hence the Unclosed-tag
range end — is `20 = node.end`, while the claimed `endTagStart ?? end`
would be `0`. -/
theorem claim4_recorded_end_counterexample :
    exZeroEts.endTagStart = some 0 ∧ exZeroEts.endOff = 20 ∧
    Option.getD (some 0) 20 = 0 ∧ jsOrFalsy (some 0) 20 = 20 ∧
    validateDocumentCore [exZeroEts] =
      [⟨0, 0, mkMismatchMsg "p" "div", Severity.error⟩,
       ⟨0, 20, mkUnclosedMsg "div", Severity.error⟩] ∧
    ¬ (⟨0, 0, mkUnclosedMsg "div", Severity.error⟩ : Diag) ∈
      validateDocumentCore [exZeroEts] :=
  ⟨rfl, rfl, rfl, rfl, by decide, by decide⟩

/-- C4 amended: after the traversal every remaining frame yields exactly one
Unclosed-tag diagnostic `Unclosed tag: <name>` of severity Error ranging over
the frame's recorded start and end, and every remaining frame was recorded at
push time from a traversed non-void tagged node as
`⟨lowercased tag, node.start, node.endTagStart || node.end⟩` — where the
JavaScript `||` falls back to `node.end` also when `endTagStart` is `0`. -/
theorem claim4_unclosed_report (roots : List PNode) :
    validateDocumentCore roots =
      (validateNodeList roots ⟨[], []⟩).diagnostics ++
        (validateNodeList roots ⟨[], []⟩).tagStack.reverse.map
          (fun f => ⟨f.start, f.endOff, mkUnclosedMsg f.name, Severity.error⟩) ∧
    ∀ f ∈ (validateNodeList roots ⟨[], []⟩).tagStack, f ∈ framesOfList roots := by
  refine ⟨rfl, ?_⟩
  intro f hf
  rcases validate_frames.2 roots ⟨[], []⟩ f hf with h | h
  · exact h
  · simp at h

/-- Witness for the amended C4 at the tree of the C4 counterexample: the
surviving frame records end `20`, i.e. `node.end`, because
`endTagStart = some 0` is falsy for `||`. -/
theorem claim4_unclosed_report_witness :
    (validateDocumentCore [exZeroEts] =
      (validateNodeList [exZeroEts] ⟨[], []⟩).diagnostics ++
        (validateNodeList [exZeroEts] ⟨[], []⟩).tagStack.reverse.map
          (fun f => ⟨f.start, f.endOff, mkUnclosedMsg f.name, Severity.error⟩)) ∧
    (⟨"div", 0, 20⟩ : TagFrame) ∈ (validateNodeList [exZeroEts] ⟨[], []⟩).tagStack ∧
    (⟨"div", 0, 20⟩ : TagFrame) ∈ framesOfList [exZeroEts] :=
  ⟨(claim4_unclosed_report [exZeroEts]).1, by decide,
   (claim4_unclosed_report [exZeroEts]).2 ⟨"div", 0, 20⟩ (by decide)⟩

/-- C5: void elements never participate in the stack — a void tagged node
neither pushes nor pops (its entire effect is its children's traversal) —
and every diagnostic of a validation pass names only non-void tags, whether
it is an Unclosed-tag or a Mismatched-tag diagnostic. -/
theorem claim5_void_elements_inert :
    (∀ (n : PNode) (st : VState) (t : String), n.tag = some t →
      voidElements.contains (toLowerStr t) = true →
      validateNode n st = validateNodeList n.children st) ∧
    (∀ (roots : List PNode) (d : Diag),
      d ∈ validateDocumentCore roots → NamesNonVoid d) := by
  constructor
  · intro n st t htag hvd
    cases n with
    | mk tag start endOff ets children =>
      simp only [PNode.tag] at htag
      subst htag
      have hv2 : toLowerStr t ∈ voidElements := by simpa using hvd
      simp [validateNode, PNode.children, hv2]
  · intro roots d hd
    rw [validateDocumentCore, List.mem_append] at hd
    rcases hd with hd | hd
    · have hw := validate_diag_inv NamesNonVoid
        (fun a b s e ha hb => Or.inr ⟨a, b, ha, hb, rfl⟩)
      exact hw.2 roots ⟨[], []⟩ (by intro f hf; simp at hf)
        (by intro d2 hd2; simp at hd2) d hd
    · rw [List.mem_map] at hd
      obtain ⟨f, hf, hfd⟩ := hd
      rw [List.mem_reverse] at hf
      have hnv : voidElements.contains f.name = false := by
        rcases validate_frames.2 roots ⟨[], []⟩ f hf with h | h
        · exact framesOf_nonvoid.2 roots f h
        · simp at h
      rw [← hfd]
      exact Or.inl ⟨f.name, hnv, rfl⟩

/-- Witness for C5: a void `img` node is inert, and a concrete emitted
diagnostic names only non-void tags. -/
theorem claim5_void_elements_inert_witness :
    validateNode exImg ⟨[], []⟩ = validateNodeList exImg.children ⟨[], []⟩ ∧
    NamesNonVoid ⟨0, 10, mkMismatchMsg "p" "div", Severity.error⟩ :=
  ⟨claim5_void_elements_inert.1 exImg ⟨[], []⟩ "img" rfl (by decide),
   claim5_void_elements_inert.2 [exDivUnclosedP]
     ⟨0, 10, mkMismatchMsg "p" "div", Severity.error⟩ (by decide)⟩

/-- C6: `preprocessTwig` refines the masking specification `MaskRel` for
both passes: the block pass replaces each non-overlapping, left-to-right
minimal match of the Twig block delimiters in the input by
`<!-- TWIG_BLOCK n -->`, the expression pass then replaces each such match
of the expression delimiters in the intermediate string by
`<!-- TWIG_EXPR n -->`, with `n` in each case the number of newline
characters of the matched region — so the newlines removed from each masked
region equal the count its placeholder encodes. -/
theorem claim6_preprocess_masks (source : String) :
    MaskRel "\x7b%".data "%\x7d".data blockPlaceholder source.data
      (maskScan '\x7b' '%' '%' '\x7d' blockPlaceholder source.data) ∧
    MaskRel "\x7b\x7b".data "\x7d\x7d".data exprPlaceholder
      (maskScan '\x7b' '%' '%' '\x7d' blockPlaceholder source.data)
      (preprocessTwig source).data :=
  ⟨maskScan_maskRel '\x7b' '%' '%' '\x7d' blockPlaceholder source.data,
   maskScan_maskRel '\x7b' '\x7b' '\x7d' '\x7d' exprPlaceholder
     (maskScan '\x7b' '%' '%' '\x7d' blockPlaceholder source.data)⟩

/-- C7 counterexample: `preprocessTwig` on an input whose `\x7b%` is
unterminated (no `%\x7d` ever follows) still rewrites text after that
delimiter, because the expression pass runs on the block pass's output: the
`\x7b\x7bx\x7d\x7d` inside the unterminated block region is replaced. -/
theorem claim7_unterminated_counterexample :
    ("\x7b%a\x7b\x7bx\x7d\x7d".data = [] ++ "\x7b%".data ++ "a\x7b\x7bx\x7d\x7d".data ∧
      ¬ ∃ u v, "a\x7b\x7bx\x7d\x7d".data = u ++ "%\x7d".data ++ v) ∧
    preprocessTwig "\x7b%a\x7b\x7bx\x7d\x7d" = "\x7b%a<!-- TWIG_EXPR 0 -->" ∧
    preprocessTwig "\x7b%a\x7b\x7bx\x7d\x7d" ≠ "\x7b%a\x7b\x7bx\x7d\x7d" := by
  have heval : preprocessTwig "\x7b%a\x7b\x7bx\x7d\x7d" = "\x7b%a<!-- TWIG_EXPR 0 -->" := by
    simp only [preprocessTwig]
    simp +decide [maskScan_cons2, maskScan_one, maskScan_nil, splitAtSub, findSub,
      matchesAt, countNewlines, exprPlaceholder, blockPlaceholder]
  refine ⟨⟨rfl, splitAtSub_none "%\x7d".data "a\x7b\x7bx\x7d\x7d".data (by decide)
    (by decide)⟩, heval, ?_⟩
  rw [heval]
  decide

/-- C7 amended: `preprocessTwig` is a total function; within one pass, when
the first occurrence of that pass's opening delimiter has no closing
delimiter anywhere after it, the pass returns its input unchanged — but the
other pass still runs, so the full `preprocessTwig` can rewrite text after
an unterminated delimiter (see the counterexample). -/
theorem claim7_unterminated_pass_noop :
    (∀ (s pre t : List Char), splitAtSub "\x7b%".data s = some (pre, t) →
      splitAtSub "%\x7d".data t = none →
      maskScan '\x7b' '%' '%' '\x7d' blockPlaceholder s = s) ∧
    (∀ (s pre t : List Char), splitAtSub "\x7b\x7b".data s = some (pre, t) →
      splitAtSub "\x7d\x7d".data t = none →
      maskScan '\x7b' '\x7b' '\x7d' '\x7d' exprPlaceholder s = s) :=
  ⟨fun s pre t h1 h2 =>
    maskScan_unterminated '\x7b' '%' '%' '\x7d' blockPlaceholder s pre t h1 h2,
   fun s pre t h1 h2 =>
    maskScan_unterminated '\x7b' '\x7b' '\x7d' '\x7d' exprPlaceholder s pre t h1 h2⟩

/-- Witness for the amended C7: each pass leaves a concrete input with an
unterminated opening delimiter of its own kind unchanged. -/
theorem claim7_unterminated_pass_noop_witness :
    splitAtSub "\x7b%".data "\x7b%a".data = some ([], ['a']) ∧
    splitAtSub "%\x7d".data ['a'] = none ∧
    maskScan '\x7b' '%' '%' '\x7d' blockPlaceholder "\x7b%a".data = "\x7b%a".data ∧
    splitAtSub "\x7b\x7b".data "\x7b\x7bb".data = some ([], ['b']) ∧
    splitAtSub "\x7d\x7d".data ['b'] = none ∧
    maskScan '\x7b' '\x7b' '\x7d' '\x7d' exprPlaceholder "\x7b\x7bb".data =
      "\x7b\x7bb".data :=
  ⟨by decide, by decide,
   claim7_unterminated_pass_noop.1 "\x7b%a".data [] ['a'] (by decide) (by decide),
   by decide, by decide,
   claim7_unterminated_pass_noop.2 "\x7b\x7bb".data [] ['b'] (by decide) (by decide)⟩
